import Mathlib

/-!
Verification of the integer-partition generator (Kelleher's constant-amortized-time
ascending-composition algorithm) from src/lib.rs.

The Rust source is shallowly embedded: the struct `Partitions { a, k, y, next }`
becomes a Lean structure over `List Nat`; the `StreamingIterator` methods `advance`
and `get` become pure state-transformers; the in-place `while` loop inside `advance`
becomes the fuel-indexed structural recursion `descendLoopF` (fuel `y` suffices,
since every iteration strictly decreases `y`; `descendLoop_unfold` below proves the
exact loop equation, so the embedding satisfies precisely the source's loop law).
Machine integers (`usize`) are modelled as `Nat`; every subtraction performed by the
source is proved (claim C8) to never underflow on reachable states, so `Nat`
truncated subtraction agrees with `usize` arithmetic there.  Rust's panicking
indexing/slicing is modelled by total `List.getD`/`List.set`/`List.take`; claim C8
proves all indices are in bounds on reachable states, where the two semantics agree.
-/

namespace IntegerPartitions

/-- Source `enum State { A, B { x: usize, l: usize } }` (src/lib.rs lines 19-23). -/
inductive State : Type
  | A : State
  | B (x l : Nat) : State
deriving DecidableEq

/-- Source `struct Partitions { a: Vec<usize>, k: usize, y: usize, next: State }`
(src/lib.rs lines 11-17).  The vector is a `List Nat`; capacity is not observable
and is not modelled. -/
structure Partitions : Type where
  a : List Nat
  k : Nat
  y : Nat
  next : State
deriving DecidableEq

/-- Source `Partitions::new` (src/lib.rs lines 28-43). -/
def Partitions.new (n : Nat) : Partitions :=
  if n = 0 then
    { a := [1], k := 0, y := 0, next := State.A }
  else
    { a := List.replicate (n + 1) 0, k := 1, y := n - 1, next := State.A }

/-- The `while 2 * x <= y { a[k] = x; y -= x; k += 1 }` loop of `advance`
(src/lib.rs lines 128-132), with `x = w + 1` (at the unique call site the source
computes `x = a[k] + 1`, and `x` never changes inside the loop).  Structural fuel
recursion; fuel `y` always suffices because each iteration removes `x ≥ 1` from `y`
(`descendLoop_unfold` below recovers the exact loop equation). -/
def descendLoopF : Nat → List Nat → Nat → Nat → Nat → List Nat × Nat × Nat
  | 0, a, k, _, y => (a, k, y)
  | fuel + 1, a, k, w, y =>
    if 2 * (w + 1) ≤ y then
      descendLoopF fuel (a.set k (w + 1)) (k + 1) w (y - (w + 1))
    else
      (a, k, y)

/-- The descent loop of `advance` with sufficient fuel. -/
def descendLoop (a : List Nat) (k w y : Nat) : List Nat × Nat × Nat :=
  descendLoopF y a k w y

/-- Source `StreamingIterator::advance` (src/lib.rs lines 108-161). -/
def Partitions.advance (s : Partitions) : Partitions :=
  match s.next with
  | State.A =>
    if s.k = 0 then
      if s.a.length = 1 ∧ s.a.getD 0 0 = 1 then
        { s with a := s.a.set 0 2 }
      else
        { s with a := s.a.set 0 0 }
    else
      let w := s.a.getD (s.k - 1) 0
      match descendLoop s.a (s.k - 1) w s.y with
      | (a, k, y) =>
        let x := w + 1
        let l := k + 1
        if x ≤ y then
          { a := (a.set k x).set l y, k := k, y := y, next := State.B x l }
        else
          { a := a.set k (x + y), k := k, y := x + y - 1, next := State.A }
  | State.B x l =>
    let x1 := x + 1
    let y1 := s.y - 1
    if x1 ≤ y1 then
      { a := (s.a.set s.k x1).set l y1, k := s.k, y := y1, next := State.B x1 l }
    else
      { a := s.a.set s.k (x1 + y1), k := s.k, y := x1 + y1 - 1, next := State.A }

/-- Source `StreamingIterator::get` (src/lib.rs lines 92-105). -/
def Partitions.get (s : Partitions) : Option (List Nat) :=
  if s.next = State.A ∧ s.k = 0 ∧ (s.a.getD 0 0 = 0 ∨ s.a.length = 1) then
    if s.a.getD 0 0 = 0 then none else some []
  else
    some (s.a.take (s.k + match s.next with
      | State.A => 1
      | State.B _ _ => 2))

/-- The `for _ in 0..m { vec.push(0) }` loop of `Partitions::recycle`
(src/lib.rs lines 66-68). -/
def pushZeros : Nat → List Nat → List Nat
  | 0, v => v
  | m + 1, v => pushZeros m (v ++ [0])

/-- Source `Partitions::recycle` (src/lib.rs lines 52-76).  `vec.clear()` discards
the contents of the supplied vector, so only the empty list remains of `v`
(`vec.reserve` affects capacity only, which is not observable). -/
def Partitions.recycle (n : Nat) (v : List Nat) : Partitions :=
  let vec : List Nat := []
  if n = 0 then
    { a := vec ++ [1], k := 0, y := 0, next := State.A }
  else
    { a := pushZeros (n + 1) vec, k := 1, y := n - 1, next := State.A }

/-- Fully draining a generator by the streaming-iterator protocol: repeatedly
`advance` then `get`, collecting the emitted views, stopping at the first `none`.
`fuel` bounds the number of `advance` calls; `drainAux_stable` below shows the
result is independent of the fuel once the drain has terminated. -/
def drainAux : Nat → Partitions → List (List Nat)
  | 0, _ => []
  | fuel + 1, s =>
    match (Partitions.advance s).get with
    | none => []
    | some v => v :: drainAux fuel (Partitions.advance s)

/-- The state after `m` calls to `advance` on a generator built by `new n`.
Since `get` does not mutate, these are exactly the reachable states. -/
def reachState (n m : Nat) : Partitions :=
  Partitions.advance^[m] (Partitions.new n)

/-- `l` is a partition of `n` in the representation the spec fixes: a
non-decreasing sequence of strictly positive integers summing to `n`. -/
def IsPartitionOf (n : Nat) (l : List Nat) : Prop :=
  l.Sorted (· ≤ ·) ∧ (∀ e ∈ l, 1 ≤ e) ∧ l.sum = n

/-- The lexicographically least non-decreasing sequence with all parts at least
`x ≥ 1` summing to `r` (for `r ≥ x`): copies of `x` followed by one final part in
`[x, 2*x)`.  Proof-side reference function. -/
def minTail (x r : Nat) : List Nat :=
  if h : 2 * x ≤ r ∧ 1 ≤ x then x :: minTail x (r - x) else [r]
termination_by r
decreasing_by omega

/-- The lexicographic successor of a non-decreasing partition with at least two
parts: bump the second-to-last part and redistribute the last two parts minimally.
Proof-side reference function. -/
def lexNext : List Nat → List Nat
  | [] => []
  | [u] => [u]
  | [u, v] => minTail (u + 1) (u + v)
  | u :: v :: w :: t => u :: lexNext (v :: w :: t)

section BasicLemmas

theorem descendLoopF_congr : ∀ f1 f2 a k w y, y ≤ f1 → y ≤ f2 →
    descendLoopF f1 a k w y = descendLoopF f2 a k w y := by
  intro f1
  induction f1 with
  | zero =>
    intro f2 a k w y hy1 _
    interval_cases y
    cases f2 with
    | zero => rfl
    | succ f2 =>
      simp [descendLoopF]
  | succ f1 ih =>
    intro f2 a k w y hy1 hy2
    cases f2 with
    | zero =>
      interval_cases y
      simp [descendLoopF]
    | succ f2 =>
      simp only [descendLoopF]
      split
      · next hcond =>
        exact ih f2 _ _ w _ (by omega) (by omega)
      · rfl

/-- The exact `while`-loop equation of the source (src/lib.rs lines 128-132). -/
theorem descendLoop_unfold (a : List Nat) (k w y : Nat) :
    descendLoop a k w y =
      if 2 * (w + 1) ≤ y then descendLoop (a.set k (w + 1)) (k + 1) w (y - (w + 1))
      else (a, k, y) := by
  cases y with
  | zero => simp [descendLoop, descendLoopF]
  | succ y =>
    show descendLoopF (y + 1) a k w (y + 1) = _
    rw [descendLoopF]
    split
    · next hcond =>
      exact descendLoopF_congr y _ _ _ w _ (by omega) (by omega)
    · rfl

theorem drainAux_stable : ∀ f1 f2 s, (drainAux f1 s).length < f1 → f1 ≤ f2 →
    drainAux f2 s = drainAux f1 s := by
  intro f1
  induction f1 with
  | zero => intro f2 s h _; omega
  | succ f1 ih =>
    intro f2 s h hle
    cases f2 with
    | zero => omega
    | succ f2 =>
      simp only [drainAux] at h ⊢
      cases hg : (Partitions.advance s).get with
      | none => simp [hg]
      | some v =>
        simp only [hg, List.length_cons] at h ⊢
        rw [ih f2 (Partitions.advance s) (by omega) (by omega)]

end BasicLemmas

section UnfoldLemmas

theorem advance_A0 (a : List Nat) (y : Nat) :
    Partitions.advance ⟨a, 0, y, State.A⟩ =
      if a.length = 1 ∧ a.getD 0 0 = 1 then ⟨a.set 0 2, 0, y, State.A⟩
      else ⟨a.set 0 0, 0, y, State.A⟩ := rfl

theorem advance_AS (a : List Nat) (k y : Nat) {k2 y2 : Nat} {al : List Nat}
    (hd : descendLoop a k (a.getD k 0) y = (al, k2, y2)) :
    Partitions.advance ⟨a, k + 1, y, State.A⟩ =
      if a.getD k 0 + 1 ≤ y2 then
        ⟨(al.set k2 (a.getD k 0 + 1)).set (k2 + 1) y2, k2, y2,
          State.B (a.getD k 0 + 1) (k2 + 1)⟩
      else
        ⟨al.set k2 (a.getD k 0 + 1 + y2), k2, a.getD k 0 + 1 + y2 - 1, State.A⟩ := by
  unfold Partitions.advance
  simp only [Nat.add_sub_cancel, Nat.succ_ne_zero, if_false, hd]

theorem advance_B (a : List Nat) (k y x l : Nat) :
    Partitions.advance ⟨a, k, y, State.B x l⟩ =
      if x + 1 ≤ y - 1 then
        ⟨(a.set k (x + 1)).set l (y - 1), k, y - 1, State.B (x + 1) l⟩
      else
        ⟨a.set k (x + 1 + (y - 1)), k, x + 1 + (y - 1) - 1, State.A⟩ := rfl

theorem get_AS (a : List Nat) (k y : Nat) :
    Partitions.get ⟨a, k + 1, y, State.A⟩ = some (a.take (k + 2)) := by
  unfold Partitions.get
  rw [if_neg (by rintro ⟨-, h, -⟩; simp at h)]
  rfl

theorem get_B (a : List Nat) (k y x l : Nat) :
    Partitions.get ⟨a, k, y, State.B x l⟩ = some (a.take (k + 2)) := by
  unfold Partitions.get
  rw [if_neg (by rintro ⟨h, -⟩; simp at h)]

theorem get_A0_none (a : List Nat) (y : Nat) (h0 : a.getD 0 0 = 0) :
    Partitions.get ⟨a, 0, y, State.A⟩ = none := by
  unfold Partitions.get
  rw [if_pos ⟨rfl, rfl, Or.inl h0⟩, if_pos h0]

theorem get_A0_some (a : List Nat) (y : Nat) (h0 : a.getD 0 0 ≠ 0) (hlen : a.length ≠ 1) :
    Partitions.get ⟨a, 0, y, State.A⟩ = some (a.take 1) := by
  unfold Partitions.get
  rw [if_neg (by rintro ⟨-, -, h | h⟩ <;> contradiction)]
  rfl

end UnfoldLemmas

section EasyClaims

theorem pushZeros_eq : ∀ m v, pushZeros m v = v ++ List.replicate m 0 := by
  intro m
  induction m with
  | zero => intro v; simp [pushZeros]
  | succ m ih =>
    intro v
    rw [pushZeros, ih, List.append_assoc]
    simp [List.replicate_succ]

/-- C6: `Partitions::recycle(n, v)` yields a generator whose observable state
(buffer contents, `k`, `y`, phase) equals that of `Partitions::new(n)` for every
initially supplied vector `v`, hence the two generators produce identical
sequences of `get` results under the same `advance` calls. -/
theorem recycle_eq_new (n : Nat) (v : List Nat) :
    Partitions.recycle n v = Partitions.new n ∧
    ∀ fuel, drainAux fuel (Partitions.recycle n v) = drainAux fuel (Partitions.new n) := by
  have h : Partitions.recycle n v = Partitions.new n := by
    unfold Partitions.recycle Partitions.new
    by_cases hn : n = 0
    · simp [hn]
    · simp [hn, pushZeros_eq]
  exact ⟨h, fun fuel => by rw [h]⟩

theorem set_head_self (l : List Nat) (h : l.getD 0 0 = 0) : l.set 0 0 = l := by
  cases l with
  | nil => rfl
  | cons e t =>
    simp only [List.getD_cons_zero] at h
    rw [h]
    rfl

theorem exhausted_fix (s : Partitions) (h : s.get = none) :
    s.advance = s ∧ ∀ m, (Partitions.advance^[m] s).get = none := by
  have hshape : s.next = State.A ∧ s.k = 0 ∧ s.a.getD 0 0 = 0 := by
    unfold Partitions.get at h
    split at h
    · next hcond =>
      split at h
      · next h0 => exact ⟨hcond.1, hcond.2.1, h0⟩
      · exact absurd h (by simp)
    · exact absurd h (by simp)
  obtain ⟨hA, hk, h0⟩ := hshape
  have hfix : s.advance = s := by
    obtain ⟨a, k, y, nx⟩ := s
    simp only at hA hk h0
    subst hA hk
    rw [advance_A0, if_neg (by rintro ⟨-, h1⟩; omega), set_head_self a h0]
  refine ⟨hfix, fun m => ?_⟩
  rw [Function.iterate_fixed hfix m, h]

/-- C4: a generator that has reached exhaustion (`get` returns `None`) stays
exhausted: `advance` leaves the state literally unchanged, so every subsequent
`get` still returns `None` and no earlier partition reappears. -/
theorem exhausted_stays_exhausted (s : Partitions) (h : s.get = none) :
    s.advance = s ∧ ∀ m, (Partitions.advance^[m] s).get = none :=
  exhausted_fix s h

theorem zero_drain_eq (fuel : Nat) : drainAux (fuel + 2) (Partitions.new 0) = [[]] := by
  rw [drainAux_stable 2 (fuel + 2) (Partitions.new 0) (by decide) (by omega)]
  decide

/-- C5: draining `Partitions::new(0)` produces exactly one partition, the empty
sequence; the next advance-then-get yields `None`, a distinct outcome from a
further empty sequence. -/
theorem zero_drain (fuel : Nat) :
    drainAux (fuel + 2) (Partitions.new 0) = [[]] ∧
    (Partitions.new 0).advance.get = some [] ∧
    (Partitions.new 0).advance.advance.get = none ∧
    (none : Option (List Nat)) ≠ some [] :=
  ⟨zero_drain_eq fuel, by decide, by decide, by decide⟩

/-- C9: draining `Partitions::new(4)` produces exactly five partitions, each
summing to 4, whose multiset (ignoring enumeration order) is
`{[4], [1,3], [2,2], [1,1,2], [1,1,1,1]}`. -/
theorem four_drain (fuel : Nat) :
    drainAux (fuel + 7) (Partitions.new 4) = [[1,1,1,1], [1,1,2], [1,3], [2,2], [4]] ∧
    List.Perm (drainAux (fuel + 7) (Partitions.new 4))
      [[4], [1,3], [2,2], [1,1,2], [1,1,1,1]] ∧
    (drainAux (fuel + 7) (Partitions.new 4)).length = 5 ∧
    (drainAux (fuel + 7) (Partitions.new 4)).all (fun v => v.sum == 4) = true := by
  have hs : drainAux (fuel + 7) (Partitions.new 4) = drainAux 7 (Partitions.new 4) :=
    drainAux_stable 7 (fuel + 7) (Partitions.new 4) (by decide) (by omega)
  rw [hs]
  exact ⟨by decide, by decide, by decide, by decide⟩

/-- C10: `get` on a freshly constructed generator, before any `advance`, never
returns `None`: for `n = 0` it returns the empty view, and for `n ≥ 1` it returns
the two-element view `[0, 0]`, which is not a valid partition of `n`. -/
theorem fresh_get :
    (Partitions.new 0).get = some [] ∧
    ∀ n, 1 ≤ n → (Partitions.new n).get = some [0, 0] ∧ ¬ IsPartitionOf n [0, 0] := by
  refine ⟨by decide, fun n hn => ⟨?_, ?_⟩⟩
  · have h1 : Partitions.new n = ⟨List.replicate (n + 1) 0, 0 + 1, n - 1, State.A⟩ := by
      unfold Partitions.new
      rw [if_neg (by omega)]
    rw [h1, get_AS, List.take_replicate]
    have h2 : min (0 + 2) (n + 1) = 2 := by omega
    rw [h2]
    rfl
  · rintro ⟨-, -, hsum⟩
    simp at hsum
    omega

theorem fresh_get_witness :
    (Partitions.new 3).get = some [0, 0] ∧ ¬ IsPartitionOf 3 [0, 0] :=
  fresh_get.2 3 (by omega)

theorem exhausted_witness :
    (Partitions.mk [0] 0 0 State.A).get = none ∧
    ((Partitions.mk [0] 0 0 State.A).advance = Partitions.mk [0] 0 0 State.A ∧
      ∀ m, (Partitions.advance^[m] (Partitions.mk [0] 0 0 State.A)).get = none) :=
  ⟨by decide, exhausted_stays_exhausted (Partitions.mk [0] 0 0 State.A) (by decide)⟩

end EasyClaims

section ListHelpers

theorem take_set_ge : ∀ (l : List Nat) (i j : Nat) (v : Nat), i ≤ j →
    (l.set j v).take i = l.take i := by
  intro l
  induction l with
  | nil => intro i j v _; simp
  | cons c t ih =>
    intro i j v hij
    cases i with
    | zero => simp
    | succ i =>
      cases j with
      | zero => omega
      | succ j =>
        simp only [List.set_cons_succ, List.take_succ_cons]
        rw [ih i j v (by omega)]

theorem take_set_self_succ : ∀ (l : List Nat) (i : Nat) (v : Nat), i < l.length →
    (l.set i v).take (i + 1) = l.take i ++ [v] := by
  intro l
  induction l with
  | nil => intro i v h; simp at h
  | cons c t ih =>
    intro i v h
    cases i with
    | zero => simp
    | succ i =>
      simp only [List.set_cons_succ, List.take_succ_cons]
      rw [ih i v (by simpa using h)]
      rfl

theorem take_succ_getD : ∀ (l : List Nat) (i : Nat), i < l.length →
    l.take (i + 1) = l.take i ++ [l.getD i 0] := by
  intro l
  induction l with
  | nil => intro i h; simp at h
  | cons c t ih =>
    intro i h
    cases i with
    | zero => simp
    | succ i =>
      simp only [List.take_succ_cons, List.getD_cons_succ]
      rw [ih i (by simpa using h)]
      rfl

theorem getD_set_self (l : List Nat) (i : Nat) (v : Nat) (h : i < l.length) :
    (l.set i v).getD i 0 = v := by
  simp [List.getD_eq_getElem?_getD, List.getElem?_set_self h]

theorem getD_set_ne (l : List Nat) (i j : Nat) (v : Nat) (h : i ≠ j) :
    (l.set i v).getD j 0 = l.getD j 0 := by
  simp [List.getD_eq_getElem?_getD, List.getElem?_set_ne h]

theorem getD_take (l : List Nat) (i m : Nat) (h : i < m) :
    (l.take m).getD i 0 = l.getD i 0 := by
  simp only [List.getD_eq_getElem?_getD, List.getElem?_take, if_pos h]

theorem length_le_sum : ∀ l : List Nat, (∀ e ∈ l, 1 ≤ e) → l.length ≤ l.sum := by
  intro l
  induction l with
  | nil => simp
  | cons c t ih =>
    intro h
    have hc : 1 ≤ c := h c (by simp)
    have ht : t.length ≤ t.sum := ih fun e he => h e (by simp [he])
    simp only [List.length_cons, List.sum_cons]
    omega

end ListHelpers

section LexLemmas

theorem lex_trans : ∀ {p q r : List Nat},
    List.Lex (· < ·) p q → List.Lex (· < ·) q r → List.Lex (· < ·) p r := by
  intro p q r h1
  induction h1 generalizing r with
  | nil =>
    intro h2
    cases h2 with
    | cons _ => exact List.Lex.nil
    | rel _ => exact List.Lex.nil
  | @cons c l1 l2 h ih =>
    intro h2
    cases h2 with
    | cons h2 => exact List.Lex.cons (ih h2)
    | rel h2 => exact List.Lex.rel h2
  | rel h =>
    intro h2
    cases h2 with
    | cons h2 => exact List.Lex.rel h
    | rel h2 => exact List.Lex.rel (Nat.lt_trans h h2)

theorem lex_irrefl : ∀ p : List Nat, ¬ List.Lex (· < ·) p p := by
  intro p
  induction p with
  | nil => intro h; cases h
  | cons c t ih =>
    intro h
    cases h with
    | cons h => exact ih h
    | rel h => exact Nat.lt_irrefl c h

theorem lex_ne {p q : List Nat} (h : List.Lex (· < ·) p q) : p ≠ q := by
  rintro rfl
  exact lex_irrefl p h

end LexLemmas

section MinTailLemmas

theorem minTail_sum : ∀ r x, 1 ≤ x → x ≤ r → (minTail x r).sum = r := by
  intro r
  induction r using Nat.strong_induction_on with
  | _ r ih =>
    intro x hx hr
    unfold minTail
    split
    · next h =>
      have hrec : (minTail x (r - x)).sum = r - x :=
        ih (r - x) (by omega) x hx (by omega)
      simp only [List.sum_cons, hrec]
      omega
    · simp

theorem minTail_forall_ge : ∀ r x, 1 ≤ x → x ≤ r → ∀ e ∈ minTail x r, x ≤ e := by
  intro r
  induction r using Nat.strong_induction_on with
  | _ r ih =>
    intro x hx hr e he
    unfold minTail at he
    split at he
    · next h =>
      rcases List.mem_cons.mp he with rfl | he2
      · omega
      · exact ih (r - x) (by omega) x hx (by omega) e he2
    · next h =>
      rcases List.mem_singleton.mp he with rfl
      omega

theorem minTail_sorted : ∀ r x, 1 ≤ x → x ≤ r → (minTail x r).Sorted (· ≤ ·) := by
  intro r
  induction r using Nat.strong_induction_on with
  | _ r ih =>
    intro x hx hr
    unfold minTail
    split
    · next h =>
      rw [List.sorted_cons]
      exact ⟨minTail_forall_ge (r - x) x hx (by omega),
        ih (r - x) (by omega) x hx (by omega)⟩
    · simp

theorem minTail_ne_nil (x r : Nat) : minTail x r ≠ [] := by
  unfold minTail
  split <;> simp

theorem minTail_eq_cons (x r : Nat) (h1 : 2 * x ≤ r) (h2 : 1 ≤ x) :
    minTail x r = x :: minTail x (r - x) := by
  conv_lhs => unfold minTail
  rw [dif_pos ⟨h1, h2⟩]

theorem minTail_eq_single (x r : Nat) (h : ¬ (2 * x ≤ r ∧ 1 ≤ x)) :
    minTail x r = [r] := by
  conv_lhs => unfold minTail
  rw [dif_neg h]

/-- `minTail x r` is the lexicographically least non-decreasing list of parts
at least `x` with sum `r`. -/
theorem minTail_min : ∀ q : List Nat, q.Sorted (· ≤ ·) → q ≠ [] → 1 ≤ x →
    (∀ e ∈ q, x ≤ e) →
    minTail x q.sum = q ∨ List.Lex (· < ·) (minTail x q.sum) q := by
  intro q
  induction q with
  | nil => intro _ h; exact absurd rfl h
  | cons w q2 ih =>
    intro hsort _ hx hge
    have hw : x ≤ w := hge w (by simp)
    cases q2 with
    | nil =>
      simp only [List.sum_cons, List.sum_nil, Nat.add_zero]
      unfold minTail
      split
      · next h => exact Or.inr (List.Lex.rel (by omega))
      · exact Or.inl rfl
    | cons u q3 =>
      have hsum2 : x ≤ (u :: q3).sum := by
        have : x ≤ u := hge u (by simp)
        have : (u :: q3).sum = u + q3.sum := by simp
        omega
      have hcond : 2 * x ≤ (w :: u :: q3).sum := by
        have : (w :: u :: q3).sum = w + (u :: q3).sum := by simp
        omega
      rw [minTail_eq_cons x (w :: u :: q3).sum hcond hx]
      rcases Nat.lt_or_ge x w with hlt | hge2
      · exact Or.inr (List.Lex.rel hlt)
      · have hxw : x = w := by omega
        subst hxw
        have hrw : (x :: u :: q3).sum - x = (u :: q3).sum := by
          simp only [List.sum_cons]
          omega
        rw [hrw]
        have hrec := ih (List.sorted_cons.mp hsort).2 (by simp) hx
          (fun e he => hge e (by simp [he]))
        rcases hrec with heq | hlex
        · exact Or.inl (by rw [heq])
        · exact Or.inr (List.Lex.cons hlex)

end MinTailLemmas

section LexNextLemmas

theorem lexNext_cons (c : Nat) (ls : List Nat) (h : 2 ≤ ls.length) :
    lexNext (c :: ls) = c :: lexNext ls := by
  match ls, h with
  | d :: w :: t, _ => rfl

theorem lexNext_append : ∀ (q : List Nat) (u v : Nat),
    lexNext (q ++ [u, v]) = q ++ minTail (u + 1) (u + v) := by
  intro q
  induction q with
  | nil => intro u v; rfl
  | cons c q ih =>
    intro u v
    rw [List.cons_append, lexNext_cons c (q ++ [u, v]) (by simp), ih, List.cons_append]

theorem lexNext_gt : ∀ p : List Nat, (∀ e ∈ p, 1 ≤ e) → 2 ≤ p.length →
    List.Lex (· < ·) p (lexNext p) := by
  intro p
  induction p with
  | nil => intro _ h; simp at h
  | cons c p ih =>
    intro hpos hlen
    rcases p with _ | ⟨d, p2⟩
    · simp at hlen
    rcases p2 with _ | ⟨w, t⟩
    · show List.Lex (· < ·) [c, d] (minTail (c + 1) (c + d))
      have hd : 1 ≤ d := hpos d (by simp)
      unfold minTail
      split
      · exact List.Lex.rel (by omega)
      · exact List.Lex.rel (by omega)
    · rw [lexNext_cons c (d :: w :: t) (by simp)]
      exact List.Lex.cons (ih (fun e he => hpos e (by simp [he])) (by simp))

/-- Between a non-decreasing positive partition `p` (with at least two parts) and
any strictly lex-greater partition of the same sum there is nothing below
`lexNext p`: the machine's successor is the immediate successor. -/
theorem lexNext_immediate : ∀ p q : List Nat, p.Sorted (· ≤ ·) → q.Sorted (· ≤ ·) →
    (∀ e ∈ p, 1 ≤ e) → (∀ e ∈ q, 1 ≤ e) → p.sum = q.sum → 2 ≤ p.length →
    List.Lex (· < ·) p q →
    lexNext p = q ∨ List.Lex (· < ·) (lexNext p) q := by
  intro p
  induction p with
  | nil => intro q _ _ _ _ _ h; simp at h
  | cons c p ih =>
    intro q hps hqs hpp hqp hsum hlen hlex
    rcases p with _ | ⟨d, p2⟩
    · simp at hlen
    rcases p2 with _ | ⟨w, t⟩
    · -- base case: p = [c, d]
      cases hlex with
      | @rel _ _ b l2 h =>
        -- q = b :: l2 with c < b: q is a sorted list of parts all at least c+1
        have hge : ∀ e ∈ b :: l2, c + 1 ≤ e := by
          intro e he
          rcases List.mem_cons.mp he with rfl | he2
          · omega
          · have := (List.sorted_cons.mp hqs).1 e he2
            omega
        have hmin := minTail_min (x := c + 1) (b :: l2) hqs (by simp) (by omega) hge
        rw [← hsum] at hmin
        show lexNext [c, d] = b :: l2 ∨ _
        rw [show lexNext [c, d] = minTail (c + 1) (c + d) from rfl]
        have hsimp : ([c, d] : List Nat).sum = c + d := by simp
        rw [hsimp] at hmin
        exact hmin
      | @cons _ _ l2 h =>
        -- q = c :: l2 with Lex [d] l2; sums force a contradiction
        exfalso
        cases h with
        | @rel _ _ b l3 h2 =>
          have h3 : ([c, d] : List Nat).sum = c + d := by simp
          have h4 : (c :: b :: l3).sum = c + (b + l3.sum) := by simp
          omega
        | @cons _ _ l3 h2 =>
          cases h2 with
          | @nil e l4 =>
            have h3 : ([c, d] : List Nat).sum = c + d := by simp
            have h4 : (c :: d :: e :: l4).sum = c + (d + (e + l4.sum)) := by simp
            have h5 : 1 ≤ e := hqp e (by simp)
            omega
    · -- inductive case: p = c :: (d :: w :: t)
      cases hlex with
      | @rel _ _ b l2 h =>
        rw [lexNext_cons c (d :: w :: t) (by simp)]
        exact Or.inr (List.Lex.rel h)
      | @cons _ _ l2 h =>
        have hrec := ih l2 (List.sorted_cons.mp hps).2 (List.sorted_cons.mp hqs).2
          (fun e he => hpp e (by simp [he])) (fun e he => hqp e (by simp [he]))
          (by simp only [List.sum_cons] at hsum ⊢; omega) (by simp) h
        rw [lexNext_cons c (d :: w :: t) (by simp)]
        rcases hrec with heq | hlex2
        · exact Or.inl (by rw [heq])
        · exact Or.inr (List.Lex.cons hlex2)

/-- `[n]` is the lexicographically greatest partition of `n`. -/
theorem partition_lex_max (q : List Nat) (n : Nat) (hq : IsPartitionOf n q)
    (hne : q ≠ [n]) (hn : 1 ≤ n) : List.Lex (· < ·) q [n] := by
  obtain ⟨hsort, hpos, hsum⟩ := hq
  rcases q with _ | ⟨w, q2⟩
  · simp at hsum; omega
  · have hsum2 : w + q2.sum = n := by simpa using hsum
    rcases Nat.lt_or_ge w n with hlt | hge
    · exact List.Lex.rel hlt
    · have hw : w = n := by omega
      have hq2 : q2.sum = 0 := by omega
      have : q2 = [] := by
        cases q2 with
        | nil => rfl
        | cons u q3 =>
          have h1 : 1 ≤ u := hpos u (by simp)
          have : u + q3.sum = 0 := by simpa using hq2
          omega
      subst this hw
      exact absurd rfl hne

end LexNextLemmas

/-- In-bounds / no-underflow conditions for the iterations of the descent loop:
each executed iteration writes `a[k]` in bounds and performs `y -= x` without
underflow.  Fuel-indexed exactly like `descendLoopF`. -/
def descendLoopSafeF : Nat → List Nat → Nat → Nat → Nat → Prop
  | 0, _, _, _, _ => True
  | fuel + 1, a, k, w, y =>
    if 2 * (w + 1) ≤ y then
      k < a.length ∧ w + 1 ≤ y ∧
        descendLoopSafeF fuel (a.set k (w + 1)) (k + 1) w (y - (w + 1))
    else
      True

/-- Safety of every iteration of the descent loop (with the always-sufficient
fuel `y`; `descendLoopSafe_unfold` recovers the exact loop law). -/
def descendLoopSafe (a : List Nat) (k w y : Nat) : Prop :=
  descendLoopSafeF y a k w y

/-- Every buffer index read or written and every usize subtraction performed by
one call of `advance` from state `s` is in bounds respectively does not
underflow (`k - 1` itself is guarded by the source's `k != 0` test). -/
def advanceSafe (s : Partitions) : Prop :=
  match s.next with
  | State.A =>
    if s.k = 0 then
      0 < s.a.length
    else
      s.k - 1 < s.a.length ∧
      descendLoopSafe s.a (s.k - 1) (s.a.getD (s.k - 1) 0) s.y ∧
      (match descendLoop s.a (s.k - 1) (s.a.getD (s.k - 1) 0) s.y with
       | (al, k2, y2) =>
         if s.a.getD (s.k - 1) 0 + 1 ≤ y2 then
           k2 < al.length ∧ k2 + 1 < al.length
         else
           k2 < al.length ∧ 1 ≤ s.a.getD (s.k - 1) 0 + 1 + y2)
  | State.B x l =>
    1 ≤ s.y ∧
    (if x + 1 ≤ s.y - 1 then
      s.k < s.a.length ∧ l < s.a.length
    else
      s.k < s.a.length ∧ 1 ≤ x + 1 + (s.y - 1))

/-- Every buffer index read and the slice taken by one call of `get` from state
`s` is in bounds. -/
def getSafe (s : Partitions) : Prop :=
  0 < s.a.length ∧
  (¬ (s.next = State.A ∧ s.k = 0 ∧ (s.a.getD 0 0 = 0 ∨ s.a.length = 1)) →
    (s.k + match s.next with | State.A => 1 | State.B _ _ => 2) ≤ s.a.length)

/-- The exhausted configuration for the general case (`buffer[0] = 0` sentinel),
which also covers the drained zero-case generator. -/
def Dead (s : Partitions) : Prop :=
  s.next = State.A ∧ s.k = 0 ∧ s.a.getD 0 0 = 0 ∧ 1 ≤ s.a.length

/-- Invariant of a reachable phase-`A` state currently holding an emitted
partition `p`: the active region is `a[0..=k]` and `y = a[k] - 1`. -/
def InvA (n : Nat) (s : Partitions) (p : List Nat) : Prop :=
  s.next = State.A ∧ s.a.length = n + 1 ∧ s.k + 1 ≤ n ∧
  p = s.a.take (s.k + 1) ∧ IsPartitionOf n p ∧ s.y + 1 = s.a.getD s.k 0

/-- Invariant of a reachable phase-`B` (split) state currently holding an
emitted partition `p`: the active region is `a[0..=l]` with `l = k + 1`,
`a[k] = x`, `a[l] = y`, and `x ≤ y < 2 * x`. -/
def InvB (n : Nat) (s : Partitions) (p : List Nat) : Prop :=
  (∃ x, s.next = State.B x (s.k + 1) ∧ s.a.getD s.k 0 = x ∧ x ≤ s.y ∧ s.y < 2 * x) ∧
  s.a.length = n + 1 ∧ s.k + 2 ≤ n ∧
  p = s.a.take (s.k + 2) ∧ IsPartitionOf n p ∧ s.a.getD (s.k + 1) 0 = s.y

/-- Invariant of a reachable, non-exhausted, non-fresh state. -/
def Inv (n : Nat) (s : Partitions) (p : List Nat) : Prop :=
  InvA n s p ∨ InvB n s p

section SafeUnfold

theorem descendLoopSafeF_congr : ∀ f1 f2 a k w y, y ≤ f1 → y ≤ f2 →
    (descendLoopSafeF f1 a k w y ↔ descendLoopSafeF f2 a k w y) := by
  intro f1
  induction f1 with
  | zero =>
    intro f2 a k w y hy1 _
    interval_cases y
    cases f2 with
    | zero => rfl
    | succ f2 => simp [descendLoopSafeF]
  | succ f1 ih =>
    intro f2 a k w y hy1 hy2
    cases f2 with
    | zero =>
      interval_cases y
      simp [descendLoopSafeF]
    | succ f2 =>
      simp only [descendLoopSafeF]
      split
      · next hcond =>
        rw [ih f2 _ _ w _ (by omega) (by omega)]
      · rfl

theorem descendLoopSafe_unfold (a : List Nat) (k w y : Nat) :
    descendLoopSafe a k w y ↔
      (if 2 * (w + 1) ≤ y then
        k < a.length ∧ w + 1 ≤ y ∧ descendLoopSafe (a.set k (w + 1)) (k + 1) w (y - (w + 1))
      else True) := by
  cases y with
  | zero => simp [descendLoopSafe, descendLoopSafeF]
  | succ y =>
    show descendLoopSafeF (y + 1) a k w (y + 1) ↔ _
    rw [descendLoopSafeF]
    split
    · next hcond =>
      exact and_congr_right fun _ => and_congr_right fun _ =>
        descendLoopSafeF_congr y (y + 1 - (w + 1)) _ _ w _ (by omega) (by omega)
    · rfl

theorem advanceSafe_AS (a : List Nat) (k y : Nat) {al : List Nat} {k2 y2 : Nat}
    (hd : descendLoop a k (a.getD k 0) y = (al, k2, y2)) :
    advanceSafe ⟨a, k + 1, y, State.A⟩ ↔
      (k < a.length ∧ descendLoopSafe a k (a.getD k 0) y ∧
        (if a.getD k 0 + 1 ≤ y2 then
          k2 < al.length ∧ k2 + 1 < al.length
        else
          k2 < al.length ∧ 1 ≤ a.getD k 0 + 1 + y2)) := by
  simp only [advanceSafe, Nat.add_sub_cancel, Nat.succ_ne_zero, if_false, hd]

end SafeUnfold

section InvLemmas

theorem Inv_part {n : Nat} {s : Partitions} {p : List Nat} (h : Inv n s p) :
    IsPartitionOf n p := by
  rcases h with h | h
  · exact h.2.2.2.2.1
  · exact h.2.2.2.2.1

theorem Inv_plen {n : Nat} {s : Partitions} {p : List Nat} (h : Inv n s p) :
    (InvA n s p → p.length = s.k + 1) ∧ (InvB n s p → p.length = s.k + 2) := by
  constructor
  · rintro ⟨-, hlen, hk, hp, -, -⟩
    rw [hp, List.length_take, hlen]
    omega
  · rintro ⟨-, hlen, hk, hp, -, -⟩
    rw [hp, List.length_take, hlen]
    omega

theorem Inv_get {n : Nat} {s : Partitions} {p : List Nat} (hn : 1 ≤ n)
    (h : Inv n s p) : s.get = some p := by
  obtain ⟨a, k, y, nx⟩ := s
  rcases h with ⟨hnext, hlen, hk, hp, hpart, hy⟩ | ⟨⟨x, hnext, hx, hxy, hy2x⟩, hlen, hk, hp, hpart, hyl⟩
  · simp only at hnext hlen hk hp hy
    subst hnext
    cases k with
    | zero =>
      have h0lt : 0 < a.length := by omega
      have hp1 : p = [a.getD 0 0] := by
        rw [hp, take_succ_getD a 0 h0lt]
        rfl
      have hsum : a.getD 0 0 = n := by
        have := hpart.2.2
        rw [hp1] at this
        simpa using this
      rw [get_A0_some a y (by omega) (by omega), hp]
    | succ k =>
      rw [get_AS, hp]
  · simp only at hnext hlen hk hp hyl hx
    subst hnext
    rw [get_B, hp]

end InvLemmas

section LoopSpec

/-- Characterization of the descent loop under the invariant's bookkeeping:
it lays down a block of equal parts `w + 1` (the minimal extension), preserving
length / sortedness / positivity / upper-bound / sum facts, composes with
`minTail`, and every iteration is safe. -/
theorem descendLoop_spec : ∀ (y : Nat) (n : Nat) (a : List Nat) (k w : Nat),
    a.length = n + 1 →
    (a.take k).length = k →
    (a.take k).Sorted (· ≤ ·) →
    (∀ e ∈ a.take k, 1 ≤ e) →
    (∀ e ∈ a.take k, e ≤ w + 1) →
    (a.take k).sum + (w + 1) + y = n →
    ∃ al k2 y2, descendLoop a k w y = (al, k2, y2) ∧
      al.length = n + 1 ∧
      (al.take k2).length = k2 ∧
      (al.take k2).Sorted (· ≤ ·) ∧
      (∀ e ∈ al.take k2, 1 ≤ e) ∧
      (∀ e ∈ al.take k2, e ≤ w + 1) ∧
      (al.take k2).sum + (w + 1) + y2 = n ∧
      ¬ 2 * (w + 1) ≤ y2 ∧
      al.take k2 ++ minTail (w + 1) (w + 1 + y2) = a.take k ++ minTail (w + 1) (w + 1 + y) ∧
      descendLoopSafe a k w y := by
  intro y
  induction y using Nat.strong_induction_on with
  | _ y ih =>
    intro n a k w hlen hkl hsort hpos hub hsum
    by_cases hcond : 2 * (w + 1) ≤ y
    · -- one more iteration
      have hksum : k ≤ (a.take k).sum := by
        have := length_le_sum (a.take k) hpos
        omega
      have hklt : k < a.length := by omega
      set a1 := a.set k (w + 1) with ha1
      have htk : a1.take (k + 1) = a.take k ++ [w + 1] := take_set_self_succ a k (w + 1) hklt
      have hlen1 : a1.length = n + 1 := by rw [ha1, List.length_set, hlen]
      have hkl1 : (a1.take (k + 1)).length = k + 1 := by
        rw [htk, List.length_append, hkl]
        rfl
      have hsort1 : (a1.take (k + 1)).Sorted (· ≤ ·) := by
        rw [htk]
        unfold List.Sorted
        rw [List.pairwise_append]
        exact ⟨hsort, by simp, fun e he b hb => by
          rcases List.mem_singleton.mp hb with rfl
          exact hub e he⟩
      have hpos1 : ∀ e ∈ a1.take (k + 1), 1 ≤ e := by
        rw [htk]
        intro e he
        rcases List.mem_append.mp he with he | he
        · exact hpos e he
        · rcases List.mem_singleton.mp he with rfl
          omega
      have hub1 : ∀ e ∈ a1.take (k + 1), e ≤ w + 1 := by
        rw [htk]
        intro e he
        rcases List.mem_append.mp he with he | he
        · exact hub e he
        · rcases List.mem_singleton.mp he with rfl
          omega
      have hsum1 : (a1.take (k + 1)).sum + (w + 1) + (y - (w + 1)) = n := by
        rw [htk, List.sum_append]
        simp only [List.sum_cons, List.sum_nil]
        omega
      obtain ⟨al, k2, y2, hd, hc1, hc2, hc3, hc4, hc5, hc6, hc7, hc8, hc9⟩ :=
        ih (y - (w + 1)) (by omega) n a1 (k + 1) w hlen1 hkl1 hsort1 hpos1 hub1 hsum1
      refine ⟨al, k2, y2, ?_, hc1, hc2, hc3, hc4, hc5, hc6, hc7, ?_, ?_⟩
      · rw [descendLoop_unfold, if_pos hcond, ← ha1, hd]
      · rw [hc8, htk, List.append_assoc]
        have hmt : minTail (w + 1) (w + 1 + y) =
            (w + 1) :: minTail (w + 1) (w + 1 + (y - (w + 1))) := by
          rw [minTail_eq_cons (w + 1) (w + 1 + y) (by omega) (by omega)]
          congr 1
          congr 1
          omega
        rw [hmt]
        rfl
      · rw [descendLoopSafe_unfold, if_pos hcond]
        exact ⟨hklt, by omega, hc9⟩
    · -- loop exits immediately
      refine ⟨a, k, y, ?_, hlen, hkl, hsort, hpos, hub, hsum, hcond, rfl, ?_⟩
      · rw [descendLoop_unfold, if_neg hcond]
      · rw [descendLoopSafe_unfold, if_neg hcond]
        trivial

end LoopSpec

section StepLemmas

/-- Core of a phase-`A` advance with `k ≥ 1` (shared by the first advance after
construction and by every later `A`-step): starting above position `k` with the
invariant bookkeeping for the prefix `a[0..k)`, the machine ends up holding
exactly `a[0..k) ++ minTail (a[k]+1) (a[k]+1+y)`, in a state satisfying the
invariant, and the whole step is safe. -/
theorem advanceA_core (n : Nat) (a : List Nat) (k y : Nat)
    (hlen : a.length = n + 1)
    (hkl : (a.take k).length = k)
    (hsort : (a.take k).Sorted (· ≤ ·))
    (hpos : ∀ e ∈ a.take k, 1 ≤ e)
    (hub : ∀ e ∈ a.take k, e ≤ a.getD k 0 + 1)
    (hsum : (a.take k).sum + (a.getD k 0 + 1) + y = n) :
    Inv n (Partitions.advance ⟨a, k + 1, y, State.A⟩)
      (a.take k ++ minTail (a.getD k 0 + 1) (a.getD k 0 + 1 + y)) ∧
    advanceSafe ⟨a, k + 1, y, State.A⟩ := by
  set w := a.getD k 0 with hw
  obtain ⟨al, k2, y2, hd, hc1, hc2, hc3, hc4, hc5, hc6, hc7, hc8, hc9⟩ :=
    descendLoop_spec y n a k w hlen hkl hsort hpos hub hsum
  have hksum : k ≤ (a.take k).sum := by
    have := length_le_sum (a.take k) hpos
    omega
  have hklt : k < a.length := by omega
  have hk2sum : k2 ≤ (al.take k2).sum := by
    have := length_le_sum (al.take k2) hc4
    omega
  rw [advance_AS a k y hd, advanceSafe_AS a k y hd]
  by_cases hxy : w + 1 ≤ y2
  · rw [if_pos hxy, if_pos hxy]
    have hk2n : k2 + 2 ≤ n := by omega
    have hk2lt : k2 < al.length := by omega
    have hk21lt : k2 + 1 < (al.set k2 (w + 1)).length := by
      rw [List.length_set]
      omega
    have htk1 : (al.set k2 (w + 1)).take (k2 + 1) = al.take k2 ++ [w + 1] :=
      take_set_self_succ al k2 (w + 1) hk2lt
    have htk2 : ((al.set k2 (w + 1)).set (k2 + 1) y2).take (k2 + 2) =
        al.take k2 ++ [w + 1, y2] := by
      rw [take_set_self_succ (al.set k2 (w + 1)) (k2 + 1) y2 hk21lt, htk1,
        List.append_assoc]
      rfl
    have hmt : minTail (w + 1) (w + 1 + y2) = [w + 1, y2] := by
      rw [minTail_eq_cons (w + 1) (w + 1 + y2) (by omega) (by omega)]
      have h1 : w + 1 + y2 - (w + 1) = y2 := by omega
      rw [h1, minTail_eq_single (w + 1) y2 (fun hh => hc7 hh.1)]
    have hemit : ((al.set k2 (w + 1)).set (k2 + 1) y2).take (k2 + 2) =
        a.take k ++ minTail (w + 1) (w + 1 + y) := by
      rw [htk2, ← hc8, hmt]
    refine ⟨Or.inr ?_, hklt, hc9, hk2lt, by omega⟩
    refine ⟨⟨w + 1, rfl, ?_, show w + 1 ≤ y2 from hxy, show y2 < 2 * (w + 1) by omega⟩,
      ?_, show k2 + 2 ≤ n from hk2n, hemit.symm, ?_, ?_⟩
    · show (((al.set k2 (w + 1)).set (k2 + 1) y2).getD k2 0) = w + 1
      rw [getD_set_ne _ (k2 + 1) k2 y2 (by omega), getD_set_self al k2 (w + 1) hk2lt]
    · show ((al.set k2 (w + 1)).set (k2 + 1) y2).length = n + 1
      simp only [List.length_set]
      exact hc1
    · rw [← hemit, htk2]
      refine ⟨?_, ?_, ?_⟩
      · unfold List.Sorted
        rw [List.pairwise_append]
        refine ⟨hc3, ?_, ?_⟩
        · simp [hxy]
        · intro e he b hb
          have hew : e ≤ w + 1 := hc5 e he
          rcases List.mem_cons.mp hb with rfl | hb2
          · exact hew
          · rcases List.mem_singleton.mp hb2 with rfl
            omega
      · intro e he
        rcases List.mem_append.mp he with he | he
        · exact hc4 e he
        · rcases List.mem_cons.mp he with rfl | he2
          · omega
          · rcases List.mem_singleton.mp he2 with rfl
            omega
      · rw [List.sum_append]
        simp only [List.sum_cons, List.sum_nil]
        omega
    · show (((al.set k2 (w + 1)).set (k2 + 1) y2).getD (k2 + 1) 0) = y2
      exact getD_set_self (al.set k2 (w + 1)) (k2 + 1) y2 hk21lt
  · rw [if_neg hxy, if_neg hxy]
    have hk2lt : k2 < al.length := by omega
    have htk1 : (al.set k2 (w + 1 + y2)).take (k2 + 1) = al.take k2 ++ [w + 1 + y2] :=
      take_set_self_succ al k2 (w + 1 + y2) hk2lt
    have hmt : minTail (w + 1) (w + 1 + y2) = [w + 1 + y2] :=
      minTail_eq_single (w + 1) (w + 1 + y2) (fun hh => by omega)
    have hemit : (al.set k2 (w + 1 + y2)).take (k2 + 1) =
        a.take k ++ minTail (w + 1) (w + 1 + y) := by
      rw [htk1, ← hc8, hmt]
    refine ⟨Or.inl ⟨rfl, ?_, show k2 + 1 ≤ n by omega, hemit.symm, ?_, ?_⟩,
      hklt, hc9, hk2lt, show 1 ≤ w + 1 + y2 by omega⟩
    · show (al.set k2 (w + 1 + y2)).length = n + 1
      rw [List.length_set]
      exact hc1
    · rw [← hemit, htk1]
      refine ⟨?_, ?_, ?_⟩
      · unfold List.Sorted
        rw [List.pairwise_append]
        refine ⟨hc3, by simp, ?_⟩
        intro e he b hb
        rcases List.mem_singleton.mp hb with rfl
        have := hc5 e he
        omega
      · intro e he
        rcases List.mem_append.mp he with he | he
        · exact hc4 e he
        · rcases List.mem_singleton.mp he with rfl
          omega
      · rw [List.sum_append]
        simp only [List.sum_cons, List.sum_nil]
        omega
    · show w + 1 + y2 - 1 + 1 = (al.set k2 (w + 1 + y2)).getD k2 0
      rw [getD_set_self al k2 (w + 1 + y2) hk2lt]
      omega

/-- The first advance after construction (for `n ≥ 1`) establishes the invariant
with the lexicographically least partition `minTail 1 n` (all ones, or all ones
and a two). -/
theorem fresh_inv (n : Nat) (hn : 1 ≤ n) :
    Inv n (Partitions.advance (Partitions.new n)) (minTail 1 n) ∧
    advanceSafe (Partitions.new n) := by
  have hnew : Partitions.new n = ⟨List.replicate (n + 1) 0, 0 + 1, n - 1, State.A⟩ := by
    unfold Partitions.new
    rw [if_neg (by omega)]
  have hg : (List.replicate (n + 1) 0).getD 0 0 = 0 := by
    rw [List.replicate_succ]
    rfl
  have hcore := advanceA_core n (List.replicate (n + 1) 0) 0 (n - 1)
    (by simp) (by simp) (by simp) (by simp) (by simp)
    (by rw [hg]; simp; omega)
  rw [hnew]
  have h1 : (List.replicate (n + 1) 0).take 0 ++
      minTail ((List.replicate (n + 1) 0).getD 0 0 + 1)
        ((List.replicate (n + 1) 0).getD 0 0 + 1 + (n - 1)) = minTail 1 n := by
    rw [hg, List.take_zero, List.nil_append]
    congr 1
    omega
  rw [← h1]
  exact hcore

/-- Main step theorem: from an invariant state holding `p` with at least two
parts, one `advance` moves to an invariant state holding exactly `lexNext p`,
and the step is safe. -/
theorem step_inv (n : Nat) (s : Partitions) (p : List Nat) (hn : 1 ≤ n)
    (hinv : Inv n s p) (hlen2 : 2 ≤ p.length) :
    Inv n s.advance (lexNext p) ∧ advanceSafe s := by
  obtain ⟨a, k, y, nx⟩ := s
  rcases hinv with ⟨hnext, hlen, hk, hp, hpart, hy⟩ |
    ⟨⟨x, hnext, hx, hxy, hy2x⟩, hlen, hk, hp, hpart, hyl⟩
  · -- phase A step with k ≥ 1
    simp only at hnext hlen hk hp hy
    subst hnext
    have hplen : p.length = k + 1 := by
      rw [hp, List.length_take, hlen]
      omega
    cases k with
    | zero => omega
    | succ k0 =>
      have hk1lt : k0 + 1 < a.length := by omega
      have hk0lt : k0 < a.length := by omega
      have hdec : p = a.take k0 ++ [a.getD k0 0, a.getD (k0 + 1) 0] := by
        rw [hp, take_succ_getD a (k0 + 1) hk1lt, take_succ_getD a k0 hk0lt,
          List.append_assoc]
        rfl
      obtain ⟨hs, hpo, hsu⟩ := hpart
      rw [hdec] at hs hpo hsu
      unfold List.Sorted at hs
      rw [List.pairwise_append] at hs
      obtain ⟨hps, -, hcross⟩ := hs
      have hkl : (a.take k0).length = k0 := by
        rw [List.length_take]
        omega
      have hv : a.getD (k0 + 1) 0 = y + 1 := by
        omega
      have hsumc : (a.take k0).sum + (a.getD k0 0 + 1) + y = n := by
        rw [List.sum_append] at hsu
        simp only [List.sum_cons, List.sum_nil] at hsu
        omega
      have hcore := advanceA_core n a k0 y hlen hkl hps
        (fun e he => hpo e (List.mem_append_left _ he))
        (fun e he => by
          have := hcross e he (a.getD k0 0) (by simp)
          omega)
        hsumc
      rw [hdec, lexNext_append]
      have harg : a.getD k0 0 + a.getD (k0 + 1) 0 = a.getD k0 0 + 1 + y := by
        omega
      rw [harg]
      exact hcore
  · -- phase B step
    simp only at hnext hlen hk hp hyl hx hxy hy2x
    subst hnext
    have hklt : k < a.length := by omega
    have hk1lt : k + 1 < a.length := by omega
    have hdec : p = a.take k ++ [x, y] := by
      rw [hp, take_succ_getD a (k + 1) hk1lt, take_succ_getD a k hklt,
        List.append_assoc, hx, hyl]
      rfl
    obtain ⟨hs, hpo, hsu⟩ := hpart
    rw [hdec] at hs hpo hsu
    unfold List.Sorted at hs
    rw [List.pairwise_append] at hs
    obtain ⟨hps, -, hcross⟩ := hs
    have hx1 : 1 ≤ x := hpo x (by simp)
    have hy1 : 1 ≤ y := by omega
    rw [List.sum_append] at hsu
    simp only [List.sum_cons, List.sum_nil] at hsu
    rw [hdec, lexNext_append, advance_B a k y x (k + 1)]
    by_cases hstep : x + 1 ≤ y - 1
    · rw [if_pos hstep]
      have hmt : minTail (x + 1) (x + y) = [x + 1, y - 1] := by
        rw [minTail_eq_cons (x + 1) (x + y) (by omega) (by omega)]
        have h1 : x + y - (x + 1) = y - 1 := by omega
        rw [h1, minTail_eq_single (x + 1) (y - 1) (fun hh => by omega)]
      have hsk1lt : k + 1 < (a.set k (x + 1)).length := by
        rw [List.length_set]
        omega
      have hemit : ((a.set k (x + 1)).set (k + 1) (y - 1)).take (k + 2) =
          a.take k ++ [x + 1, y - 1] := by
        rw [take_set_self_succ (a.set k (x + 1)) (k + 1) (y - 1) hsk1lt,
          take_set_self_succ a k (x + 1) hklt, List.append_assoc]
        rfl
      refine ⟨Or.inr ⟨⟨x + 1, rfl, ?_, show x + 1 ≤ y - 1 from hstep,
          show y - 1 < 2 * (x + 1) by omega⟩, ?_, show k + 2 ≤ n from hk, ?_, ?_, ?_⟩,
        show 1 ≤ y from hy1, ?_⟩
      · show (((a.set k (x + 1)).set (k + 1) (y - 1)).getD k 0) = x + 1
        rw [getD_set_ne _ (k + 1) k (y - 1) (by omega), getD_set_self a k (x + 1) hklt]
      · show ((a.set k (x + 1)).set (k + 1) (y - 1)).length = n + 1
        simp only [List.length_set]
        exact hlen
      · rw [hmt, hemit]
      · rw [hmt]
        refine ⟨?_, ?_, ?_⟩
        · unfold List.Sorted
          rw [List.pairwise_append]
          refine ⟨hps, by simp [hstep], ?_⟩
          intro e he b hb
          have hex : e ≤ x := hcross e he x (by simp)
          rcases List.mem_cons.mp hb with rfl | hb2
          · omega
          · rcases List.mem_singleton.mp hb2 with rfl
            omega
        · intro e he
          rcases List.mem_append.mp he with he | he
          · exact hpo e (List.mem_append_left _ he)
          · rcases List.mem_cons.mp he with rfl | he2
            · omega
            · rcases List.mem_singleton.mp he2 with rfl
              omega
        · rw [List.sum_append]
          simp only [List.sum_cons, List.sum_nil]
          omega
      · show (((a.set k (x + 1)).set (k + 1) (y - 1)).getD (k + 1) 0) = y - 1
        exact getD_set_self (a.set k (x + 1)) (k + 1) (y - 1) hsk1lt
      · show (if x + 1 ≤ y - 1 then k < a.length ∧ k + 1 < a.length
          else k < a.length ∧ 1 ≤ x + 1 + (y - 1))
        rw [if_pos hstep]
        exact ⟨hklt, hk1lt⟩
    · rw [if_neg hstep]
      have hmt : minTail (x + 1) (x + y) = [x + y] :=
        minTail_eq_single (x + 1) (x + y) (fun hh => by omega)
      have hxy1 : x + 1 + (y - 1) = x + y := by omega
      have hemit : (a.set k (x + 1 + (y - 1))).take (k + 1) =
          a.take k ++ [x + 1 + (y - 1)] :=
        take_set_self_succ a k (x + 1 + (y - 1)) hklt
      refine ⟨Or.inl ⟨rfl, ?_, show k + 1 ≤ n by omega, ?_, ?_, ?_⟩,
        show 1 ≤ y from hy1, ?_⟩
      · show (a.set k (x + 1 + (y - 1))).length = n + 1
        rw [List.length_set]
        exact hlen
      · show a.take k ++ minTail (x + 1) (x + y) = (a.set k (x + 1 + (y - 1))).take (k + 1)
        rw [hmt, hemit, hxy1]
      · rw [hmt]
        refine ⟨?_, ?_, ?_⟩
        · unfold List.Sorted
          rw [List.pairwise_append]
          refine ⟨hps, by simp, ?_⟩
          intro e he b hb
          rcases List.mem_singleton.mp hb with rfl
          have hex : e ≤ x := hcross e he x (by simp)
          omega
        · intro e he
          rcases List.mem_append.mp he with he | he
          · exact hpo e (List.mem_append_left _ he)
          · rcases List.mem_singleton.mp he with rfl
            omega
        · rw [List.sum_append]
          simp only [List.sum_cons, List.sum_nil]
          omega
      · show x + 1 + (y - 1) - 1 + 1 = (a.set k (x + 1 + (y - 1))).getD k 0
        rw [getD_set_self a k (x + 1 + (y - 1)) hklt]
        omega
      · show (if x + 1 ≤ y - 1 then k < a.length ∧ k + 1 < a.length
          else k < a.length ∧ 1 ≤ x + 1 + (y - 1))
        rw [if_neg hstep]
        exact ⟨hklt, by omega⟩

/-- Terminal step: from an invariant state holding the single-part partition
`[n]`, one `advance` reaches the exhausted configuration. -/
theorem step_term (n : Nat) (s : Partitions) (p : List Nat) (hn : 1 ≤ n)
    (hinv : Inv n s p) (hlen1 : p.length < 2) :
    (Partitions.advance s).get = none ∧ Dead s.advance ∧ advanceSafe s := by
  obtain ⟨a, k, y, nx⟩ := s
  rcases hinv with ⟨hnext, hlen, hk, hp, hpart, hy⟩ |
    ⟨⟨x, hnext, hx, hxy, hy2x⟩, hlen, hk, hp, hpart, hyl⟩
  · simp only at hnext hlen hk hp hy
    subst hnext
    have hplen : p.length = k + 1 := by
      rw [hp, List.length_take, hlen]
      omega
    have hk0 : k = 0 := by omega
    subst hk0
    rw [advance_A0, if_neg (by rintro ⟨h1, -⟩; omega)]
    have h0lt : 0 < a.length := by omega
    have hget0 : (a.set 0 0).getD 0 0 = 0 := getD_set_self a 0 0 h0lt
    refine ⟨get_A0_none _ y hget0, ⟨rfl, rfl, hget0, ?_⟩, ?_⟩
    · show 1 ≤ (a.set 0 0).length
      rw [List.length_set]
      omega
    · show 0 < a.length
      omega
  · simp only at hp hlen hk
    have hplen : p.length = k + 2 := by
      rw [hp, List.length_take, hlen]
      omega
    omega

end StepLemmas

section DrainLemmas

theorem part_nonempty {n : Nat} {p : List Nat} (hn : 1 ≤ n) (hp : IsPartitionOf n p) :
    1 ≤ p.length := by
  cases p with
  | nil =>
    have h := hp.2.2
    simp at h
    omega
  | cons c t => simp

theorem part_single {n : Nat} {p : List Nat} (hn : 1 ≤ n) (hp : IsPartitionOf n p)
    (h1 : p.length < 2) : p = [n] := by
  have hne := part_nonempty hn hp
  cases p with
  | nil => simp at hne
  | cons c t =>
    cases t with
    | nil =>
      have h := hp.2.2
      simp at h
      rw [h]
    | cons d t2 => simp at h1; omega

theorem drain_cons (n : Nat) (s : Partitions) (p : List Nat) (fuel : Nat) (hn : 1 ≤ n)
    (hinv : Inv n s p) (hlen2 : 2 ≤ p.length) :
    drainAux (fuel + 1) s = lexNext p :: drainAux fuel s.advance ∧
    Inv n s.advance (lexNext p) := by
  obtain ⟨hinv2, -⟩ := step_inv n s p hn hinv hlen2
  refine ⟨?_, hinv2⟩
  show (match (Partitions.advance s).get with
    | none => []
    | some v => v :: drainAux fuel (Partitions.advance s)) = _
  rw [Inv_get hn hinv2]

theorem drain_nil_of_term (n : Nat) (s : Partitions) (p : List Nat) (fuel : Nat)
    (hn : 1 ≤ n) (hinv : Inv n s p) (hlen1 : p.length < 2) :
    drainAux fuel s = [] := by
  cases fuel with
  | zero => rfl
  | succ fuel =>
    obtain ⟨hget, -, -⟩ := step_term n s p hn hinv hlen1
    show (match (Partitions.advance s).get with
      | none => []
      | some v => v :: drainAux fuel (Partitions.advance s)) = []
    rw [hget]

theorem drain_sound : ∀ fuel n s p v, 1 ≤ n → Inv n s p → v ∈ drainAux fuel s →
    IsPartitionOf n v := by
  intro fuel
  induction fuel with
  | zero =>
    intro n s p v _ _ hv
    simp [drainAux] at hv
  | succ fuel ih =>
    intro n s p v hn hinv hv
    rcases Nat.lt_or_ge p.length 2 with hl | hl
    · rw [drain_nil_of_term n s p (fuel + 1) hn hinv hl] at hv
      simp at hv
    · obtain ⟨hdrain, hinv2⟩ := drain_cons n s p fuel hn hinv hl
      rw [hdrain] at hv
      rcases List.mem_cons.mp hv with rfl | hv2
      · exact Inv_part hinv2
      · exact ih n s.advance (lexNext p) v hn hinv2 hv2

theorem drain_gt : ∀ fuel n s p v, 1 ≤ n → Inv n s p → v ∈ drainAux fuel s →
    List.Lex (· < ·) p v := by
  intro fuel
  induction fuel with
  | zero =>
    intro n s p v _ _ hv
    simp [drainAux] at hv
  | succ fuel ih =>
    intro n s p v hn hinv hv
    rcases Nat.lt_or_ge p.length 2 with hl | hl
    · rw [drain_nil_of_term n s p (fuel + 1) hn hinv hl] at hv
      simp at hv
    · obtain ⟨hdrain, hinv2⟩ := drain_cons n s p fuel hn hinv hl
      rw [hdrain] at hv
      have hgt : List.Lex (· < ·) p (lexNext p) :=
        lexNext_gt p (Inv_part hinv).2.1 hl
      rcases List.mem_cons.mp hv with rfl | hv2
      · exact hgt
      · exact lex_trans hgt (ih n s.advance (lexNext p) v hn hinv2 hv2)

theorem drain_pairwise : ∀ fuel n s p, 1 ≤ n → Inv n s p →
    (drainAux fuel s).Pairwise (List.Lex (· < ·)) := by
  intro fuel
  induction fuel with
  | zero =>
    intro n s p _ _
    simp [drainAux]
  | succ fuel ih =>
    intro n s p hn hinv
    rcases Nat.lt_or_ge p.length 2 with hl | hl
    · rw [drain_nil_of_term n s p (fuel + 1) hn hinv hl]
      simp
    · obtain ⟨hdrain, hinv2⟩ := drain_cons n s p fuel hn hinv hl
      rw [hdrain, List.pairwise_cons]
      exact ⟨fun v hv => drain_gt fuel n s.advance (lexNext p) v hn hinv2 hv,
        ih n s.advance (lexNext p) hn hinv2⟩

/-- Completeness: a drain that has terminated (its length is below its fuel)
contains every partition lexicographically above the currently held one. -/
theorem drain_complete : ∀ fuel n s p q, 1 ≤ n → Inv n s p → IsPartitionOf n q →
    List.Lex (· < ·) p q → (drainAux fuel s).length < fuel →
    q ∈ drainAux fuel s := by
  intro fuel
  induction fuel with
  | zero =>
    intro n s p q _ _ _ _ hflen
    omega
  | succ fuel ih =>
    intro n s p q hn hinv hq hlex hflen
    have hl : 2 ≤ p.length := by
      rcases Nat.lt_or_ge p.length 2 with hl | hl
      · exfalso
        have hpn : p = [n] := part_single hn (Inv_part hinv) hl
        subst hpn
        rcases eq_or_ne q [n] with rfl | hne
        · exact lex_irrefl [n] hlex
        · exact lex_irrefl [n] (lex_trans hlex (partition_lex_max q n hq hne hn))
      · exact hl
    obtain ⟨hdrain, hinv2⟩ := drain_cons n s p fuel hn hinv hl
    rw [hdrain] at hflen ⊢
    have hppart := Inv_part hinv
    rcases lexNext_immediate p q hppart.1 hq.1 hppart.2.1 hq.2.1
      (by rw [hppart.2.2, hq.2.2]) hl hlex with heq | hlex2
    · rw [heq]
      exact List.mem_cons_self _ _
    · simp only [List.length_cons] at hflen
      exact List.mem_cons_of_mem _
        (ih n s.advance (lexNext p) q hn hinv2 hq hlex2 (by omega))

/-- First step of a drain of a fresh positive generator. -/
theorem drain_new (n fuel : Nat) (hn : 1 ≤ n) :
    drainAux (fuel + 1) (Partitions.new n) =
      minTail 1 n :: drainAux fuel (Partitions.new n).advance ∧
    Inv n (Partitions.new n).advance (minTail 1 n) := by
  obtain ⟨hinv, -⟩ := fresh_inv n hn
  refine ⟨?_, hinv⟩
  show (match ((Partitions.new n).advance).get with
    | none => []
    | some v => v :: drainAux fuel (Partitions.new n).advance) = _
  rw [Inv_get hn hinv]

theorem drain_zero_cases (fuel : Nat) :
    drainAux fuel (Partitions.new 0) = [] ∨ drainAux fuel (Partitions.new 0) = [[]] := by
  cases fuel with
  | zero => exact Or.inl rfl
  | succ fuel =>
    cases fuel with
    | zero => exact Or.inr (by decide)
    | succ fuel => exact Or.inr (zero_drain_eq fuel)

end DrainLemmas

section SoundnessClaims

/-- C2: every view emitted during enumeration on a generator constructed for `n`
is a non-decreasing sequence of strictly positive integers summing to `n`. -/
theorem emitted_views_are_partitions (n fuel : Nat) (v : List Nat)
    (hv : v ∈ drainAux fuel (Partitions.new n)) : IsPartitionOf n v := by
  cases n with
  | zero =>
    rcases drain_zero_cases fuel with h | h <;> rw [h] at hv
    · simp at hv
    · have hv2 : v = [] := by simpa using hv
      subst hv2
      exact ⟨by simp, by simp, by simp⟩
  | succ n0 =>
    cases fuel with
    | zero => simp [drainAux] at hv
    | succ fuel =>
      obtain ⟨hdrain, hinv⟩ := drain_new (n0 + 1) fuel (by omega)
      rw [hdrain] at hv
      rcases List.mem_cons.mp hv with rfl | hv2
      · exact Inv_part hinv
      · exact drain_sound fuel (n0 + 1) _ (minTail 1 (n0 + 1)) v (by omega) hinv hv2

theorem emitted_views_witness :
    [1, 1] ∈ drainAux 3 (Partitions.new 2) ∧ IsPartitionOf 2 [1, 1] :=
  ⟨by decide, emitted_views_are_partitions 2 3 [1, 1] (by decide)⟩

theorem drain_pairwise_new (n fuel : Nat) :
    (drainAux fuel (Partitions.new n)).Pairwise (List.Lex (· < ·)) := by
  cases n with
  | zero =>
    rcases drain_zero_cases fuel with h | h <;> rw [h] <;> simp
  | succ n0 =>
    cases fuel with
    | zero => simp [drainAux]
    | succ fuel =>
      obtain ⟨hdrain, hinv⟩ := drain_new (n0 + 1) fuel (by omega)
      rw [hdrain, List.pairwise_cons]
      exact ⟨fun v hv => drain_gt fuel (n0 + 1) _ _ v (by omega) hinv hv,
        drain_pairwise fuel (n0 + 1) _ _ (by omega) hinv⟩

/-- C3: within a single drained enumeration, no two emitted views are equal as
sequences — the views are emitted in strictly increasing lexicographic order. -/
theorem drain_nodup (n fuel : Nat) : (drainAux fuel (Partitions.new n)).Nodup :=
  (drain_pairwise_new n fuel).imp fun h => lex_ne h

end SoundnessClaims

section Reachable

/-- Disjunctive characterization of every reachable state: fresh, invariant
(holding some emitted partition), or exhausted; for `n = 0` the three concrete
configurations of the `1 → 2 → 0` sentinel dance. -/
def Good : Nat → Partitions → Prop
  | 0, s => s = Partitions.new 0 ∨ s = ⟨[2], 0, 0, State.A⟩ ∨ s = ⟨[0], 0, 0, State.A⟩
  | n + 1, s => s = Partitions.new (n + 1) ∨ (∃ p, Inv (n + 1) s p) ∨ Dead s

theorem good_step : ∀ n s, Good n s → Good n s.advance := by
  intro n s hg
  cases n with
  | zero =>
    rcases hg with rfl | rfl | rfl
    · exact Or.inr (Or.inl (by decide))
    · exact Or.inr (Or.inr (by decide))
    · exact Or.inr (Or.inr (by decide))
  | succ n0 =>
    rcases hg with rfl | ⟨p, hinv⟩ | hdead
    · exact Or.inr (Or.inl ⟨minTail 1 (n0 + 1), (fresh_inv (n0 + 1) (by omega)).1⟩)
    · rcases Nat.lt_or_ge p.length 2 with hl | hl
      · exact Or.inr (Or.inr (step_term (n0 + 1) s p (by omega) hinv hl).2.1)
      · exact Or.inr (Or.inl ⟨lexNext p, (step_inv (n0 + 1) s p (by omega) hinv hl).1⟩)
    · right
      right
      obtain ⟨hA, hk, h0, hlen⟩ := hdead
      have hget : s.get = none := by
        obtain ⟨a, k, y, nx⟩ := s
        simp only at hA hk h0
        subst hA hk
        exact get_A0_none a y h0
      rw [(exhausted_fix s hget).1]
      exact ⟨hA, hk, h0, hlen⟩

theorem reach_good : ∀ n m, Good n (reachState n m) := by
  intro n m
  induction m with
  | zero =>
    cases n with
    | zero => exact Or.inl rfl
    | succ n0 => exact Or.inl rfl
  | succ m ih =>
    show Good n (Partitions.advance^[m + 1] (Partitions.new n))
    rw [Function.iterate_succ_apply']
    exact good_step n _ ih

theorem new_shape (n : Nat) (hn : 1 ≤ n) :
    Partitions.new n = ⟨List.replicate (n + 1) 0, 0 + 1, n - 1, State.A⟩ := by
  unfold Partitions.new
  rw [if_neg (by omega)]

theorem Inv_getSafe {n : Nat} {s : Partitions} {p : List Nat} (hinv : Inv n s p) :
    getSafe s := by
  obtain ⟨a, k, y, nx⟩ := s
  rcases hinv with ⟨hnext, hlen, hk, -, -, -⟩ | ⟨⟨x, hnext, -, -, -⟩, hlen, hk, -, -, -⟩
  · simp only at hnext hlen hk
    subst hnext
    exact ⟨show 0 < a.length by omega, fun _ => show k + 1 ≤ a.length by omega⟩
  · simp only at hnext hlen hk
    subst hnext
    exact ⟨show 0 < a.length by omega, fun _ => show k + 2 ≤ a.length by omega⟩

theorem dead_safe {s : Partitions} (hdead : Dead s) : advanceSafe s ∧ getSafe s := by
  obtain ⟨a, k, y, nx⟩ := s
  obtain ⟨hA, hk, h0, hlen⟩ := hdead
  simp only at hA hk h0 hlen
  subst hA hk
  exact ⟨show 0 < a.length by omega,
    show 0 < a.length by omega,
    fun hc => absurd ⟨rfl, rfl, Or.inl h0⟩ hc⟩

/-- `advance` from phase `B` in terms of an abstract state. -/
theorem advance_B_of (s : Partitions) (x l : Nat) (h : s.next = State.B x l) :
    s.advance =
      if x + 1 ≤ s.y - 1 then
        ⟨(s.a.set s.k (x + 1)).set l (s.y - 1), s.k, s.y - 1, State.B (x + 1) l⟩
      else
        ⟨s.a.set s.k (x + 1 + (s.y - 1)), s.k, x + 1 + (s.y - 1) - 1, State.A⟩ := by
  obtain ⟨a, k, y, nx⟩ := s
  simp only at h
  subst h
  exact advance_B a k y x l

/-- The claim C7 facts for an abstract invariant state in phase `B`. -/
theorem splitB_facts (n : Nat) (s : Partitions) (p : List Nat) (x l : Nat)
    (hinv : InvB n s p) (hB : s.next = State.B x l) :
    l = s.k + 1 ∧ s.a.getD s.k 0 = x ∧ s.a.getD l 0 = s.y ∧
    s.a.getD s.k 0 + s.a.getD l 0 = x + s.y ∧
    (∀ x2 l2, (s.advance).next = State.B x2 l2 →
      (s.advance).a.getD s.k 0 = s.a.getD s.k 0 + 1 ∧
      (s.advance).a.getD l 0 = s.a.getD l 0 - 1 ∧
      (s.advance).a.getD s.k 0 + (s.advance).a.getD l 0 = x + s.y) := by
  obtain ⟨a, k, y, nx⟩ := s
  obtain ⟨⟨x0, hnext, hx0, hxy, hy2x⟩, hlen, hk, hp, hpart, hyl⟩ := hinv
  simp only at hnext hx0 hxy hy2x hlen hk hp hyl hB ⊢
  subst hnext
  obtain ⟨hxx, hll⟩ : x0 = x ∧ k + 1 = l := by
    cases hB
    exact ⟨rfl, rfl⟩
  subst hxx
  subst hll
  have hx1 : 1 ≤ x0 := by omega
  have hklt : k < a.length := by omega
  have hk1lt : k + 1 < a.length := by omega
  refine ⟨rfl, hx0, hyl, by omega, ?_⟩
  intro x2 l2 hB2
  rw [advance_B a k y x0 (k + 1)] at hB2 ⊢
  by_cases hstep : x0 + 1 ≤ y - 1
  · rw [if_pos hstep] at hB2 ⊢
    simp only
    rw [getD_set_ne _ (k + 1) k (y - 1) (by omega),
      getD_set_self a k (x0 + 1) hklt,
      getD_set_self (a.set k (x0 + 1)) (k + 1) (y - 1)
        (by rw [List.length_set]; omega)]
    omega
  · rw [if_neg hstep] at hB2
    simp only at hB2
    cases hB2

/-- C8: on every reachable state, `advance` and `get` are total: every buffer
index used is in bounds, and no usize subtraction underflows (the `n - 1` in
construction is guarded by the source's `n == 0` early return, and `k - 1` by
its `k != 0` test). -/
theorem reachable_safe (n m : Nat) :
    advanceSafe (reachState n m) ∧ getSafe (reachState n m) := by
  have hg := reach_good n m
  cases n with
  | zero =>
    rcases hg with heq | heq | heq <;> rw [heq]
    · exact ⟨show 0 < ([1] : List Nat).length by simp,
        show 0 < ([1] : List Nat).length by simp,
        fun hc => absurd ⟨rfl, rfl, Or.inr rfl⟩ hc⟩
    · exact ⟨show 0 < ([2] : List Nat).length by simp,
        show 0 < ([2] : List Nat).length by simp,
        fun hc => absurd ⟨rfl, rfl, Or.inr rfl⟩ hc⟩
    · exact ⟨show 0 < ([0] : List Nat).length by simp,
        show 0 < ([0] : List Nat).length by simp,
        fun hc => absurd ⟨rfl, rfl, Or.inl rfl⟩ hc⟩
  | succ n0 =>
    rcases hg with heq | ⟨p, hinv⟩ | hdead
    · rw [heq]
      refine ⟨(fresh_inv (n0 + 1) (by omega)).2, ?_⟩
      rw [new_shape (n0 + 1) (by omega)]
      refine ⟨?_, fun _ => ?_⟩
      · show 0 < (List.replicate (n0 + 1 + 1) 0).length
        simp
      · show 0 + 1 + 1 ≤ (List.replicate (n0 + 1 + 1) 0).length
        rw [List.length_replicate]
        omega
    · refine ⟨?_, Inv_getSafe hinv⟩
      rcases Nat.lt_or_ge p.length 2 with hl | hl
      · exact (step_term (n0 + 1) _ p (by omega) hinv hl).2.2
      · exact (step_inv (n0 + 1) _ p (by omega) hinv hl).2
    · exact dead_safe hdead

/-- C7: in every reachable Split-phase state (`next = B x l`), `l = k + 1`,
`buffer[k] = x` and `buffer[l] = y`; an advance that stays in Split increments
`buffer[k]` by exactly one and decrements `buffer[l]` by exactly one, keeping
`buffer[k] + buffer[l]` equal to the phase's `x + y` value (which is itself
preserved across Split steps, hence equals the value captured at phase entry). -/
theorem split_phase_invariant (n m x l : Nat)
    (hB : (reachState n m).next = State.B x l) :
    l = (reachState n m).k + 1 ∧
    (reachState n m).a.getD (reachState n m).k 0 = x ∧
    (reachState n m).a.getD l 0 = (reachState n m).y ∧
    (reachState n m).a.getD (reachState n m).k 0 + (reachState n m).a.getD l 0 =
      x + (reachState n m).y ∧
    (∀ x2 l2, ((reachState n m).advance).next = State.B x2 l2 →
      ((reachState n m).advance).a.getD (reachState n m).k 0 =
        (reachState n m).a.getD (reachState n m).k 0 + 1 ∧
      ((reachState n m).advance).a.getD l 0 =
        (reachState n m).a.getD l 0 - 1 ∧
      ((reachState n m).advance).a.getD (reachState n m).k 0 +
        ((reachState n m).advance).a.getD l 0 = x + (reachState n m).y) := by
  have hg := reach_good n m
  cases n with
  | zero =>
    rcases hg with heq | heq | heq <;> rw [heq] at hB <;>
      simp [Partitions.new] at hB
  | succ n0 =>
    rcases hg with heq | ⟨p, hinv⟩ | hdead
    · rw [heq, new_shape (n0 + 1) (by omega)] at hB
      simp at hB
    · rcases hinv with ⟨hnext, -, -, -, -, -⟩ | hinvB
      · rw [hnext] at hB
        simp at hB
      · exact splitB_facts (n0 + 1) (reachState (n0 + 1) m) p x l hinvB hB
    · obtain ⟨hA, -, -, -⟩ := hdead
      rw [hA] at hB
      simp at hB

end Reachable

section Counting

/-- The `Nat.Partition` determined by a partition list. -/
def toPart (n : Nat) (l : List Nat) (h : IsPartitionOf n l) : Nat.Partition n where
  parts := (l : Multiset Nat)
  parts_pos := fun hi => h.2.1 _ (by simpa using hi)
  parts_sum := by
    rw [Multiset.sum_coe]
    exact h.2.2

/-- The sorted list of a `Nat.Partition`. -/
def sortPart (n : Nat) (P : Nat.Partition n) : List Nat :=
  Multiset.sort (· ≤ ·) P.parts

theorem sortPart_isPartition (n : Nat) (P : Nat.Partition n) :
    IsPartitionOf n (sortPart n P) := by
  refine ⟨Multiset.sort_sorted (· ≤ ·) P.parts, ?_, ?_⟩
  · intro e he
    exact P.parts_pos (Multiset.mem_sort (· ≤ ·) |>.mp he)
  · have hco : ((sortPart n P : List Nat) : Multiset Nat) = P.parts :=
      Multiset.sort_eq (· ≤ ·) P.parts
    have := congrArg Multiset.sum hco
    rw [Multiset.sum_coe] at this
    rw [this, P.parts_sum]

theorem length_le_card (n : Nat) (L : List (List Nat)) (hnd : L.Nodup)
    (hall : ∀ v ∈ L, IsPartitionOf n v) :
    L.length ≤ Fintype.card (Nat.Partition n) := by
  classical
  have h1 : L.toFinset.card = L.length := List.toFinset_card_of_nodup hnd
  have h2 : L.toFinset.card ≤ (Finset.univ : Finset (Nat.Partition n)).card := by
    refine Finset.card_le_card_of_injOn
      (fun v => if h : IsPartitionOf n v then toPart n v h else Nat.Partition.indiscrete n)
      (fun v _ => Finset.mem_univ _) ?_
    intro v hv w hw heq
    simp only at heq
    have hv2 : IsPartitionOf n v := hall v (List.mem_toFinset.mp (Finset.mem_coe.mp hv))
    have hw2 : IsPartitionOf n w := hall w (List.mem_toFinset.mp (Finset.mem_coe.mp hw))
    rw [dif_pos hv2, dif_pos hw2] at heq
    have hparts : (v : Multiset Nat) = (w : Multiset Nat) :=
      congrArg Nat.Partition.parts heq
    have hperm : v.Perm w := Multiset.coe_eq_coe.mp hparts
    exact List.eq_of_perm_of_sorted hperm hv2.1 hw2.1
  rw [h1] at h2
  rw [Finset.card_univ] at h2
  exact h2

theorem card_le_length (n : Nat) (L : List (List Nat))
    (hall : ∀ q, IsPartitionOf n q → q ∈ L) :
    Fintype.card (Nat.Partition n) ≤ L.length := by
  classical
  have h2 : (Finset.univ : Finset (Nat.Partition n)).card ≤ L.toFinset.card := by
    refine Finset.card_le_card_of_injOn (fun P => sortPart n P)
      (fun P _ => List.mem_toFinset.mpr (hall _ (sortPart_isPartition n P))) ?_
    intro P _ Q _ heq
    simp only at heq
    have hparts : P.parts = Q.parts := by
      have h3 : ((sortPart n P : List Nat) : Multiset Nat) =
          ((sortPart n Q : List Nat) : Multiset Nat) := by rw [heq]
      unfold sortPart at h3
      rw [Multiset.sort_eq, Multiset.sort_eq] at h3
      exact h3
    exact Nat.Partition.ext hparts
  rw [Finset.card_univ] at h2
  exact le_trans h2 (List.toFinset_card_le L)

/-- C1: fully draining a generator constructed by `Partitions::new(n)` yields
exactly `A000041(n)` partition views — formally, the number of partitions of `n`
(`Fintype.card (Nat.Partition n)`); any fuel beyond the number of advances the
protocol performs gives the same drained sequence. -/
theorem drain_length_eq_card (n fuel : Nat)
    (hfuel : Fintype.card (Nat.Partition n) + 2 ≤ fuel) :
    (drainAux fuel (Partitions.new n)).length = Fintype.card (Nat.Partition n) := by
  cases n with
  | zero =>
    obtain ⟨f2, rfl⟩ : ∃ f2, fuel = f2 + 2 := ⟨fuel - 2, by omega⟩
    rw [zero_drain_eq f2, Fintype.card_unique]
    rfl
  | succ n0 =>
    have hn : 1 ≤ n0 + 1 := by omega
    obtain ⟨f1, rfl⟩ : ∃ f1, fuel = f1 + 1 := ⟨fuel - 1, by omega⟩
    obtain ⟨hdrain, hinv⟩ := drain_new (n0 + 1) f1 hn
    have hpw := drain_pairwise_new (n0 + 1) (f1 + 1)
    have hnd : (drainAux (f1 + 1) (Partitions.new (n0 + 1))).Nodup :=
      hpw.imp fun h => lex_ne h
    have hall : ∀ v ∈ drainAux (f1 + 1) (Partitions.new (n0 + 1)),
        IsPartitionOf (n0 + 1) v := by
      intro v hv
      rw [hdrain] at hv
      rcases List.mem_cons.mp hv with rfl | hv2
      · exact Inv_part hinv
      · exact drain_sound f1 (n0 + 1) _ _ v hn hinv hv2
    have hlen_le := length_le_card (n0 + 1) _ hnd hall
    have htail : (drainAux f1 (Partitions.new (n0 + 1)).advance).length + 1 =
        (drainAux (f1 + 1) (Partitions.new (n0 + 1))).length := by
      rw [hdrain]
      rfl
    have hcomp : ∀ q, IsPartitionOf (n0 + 1) q →
        q ∈ drainAux (f1 + 1) (Partitions.new (n0 + 1)) := by
      intro q hq
      have hqne : q ≠ [] := by
        intro h0
        rw [h0] at hq
        have := hq.2.2
        simp at this
      rcases minTail_min (x := 1) q hq.1 hqne (by omega)
          (fun e he => hq.2.1 e he) with heq | hlex
      · rw [hq.2.2] at heq
        rw [hdrain, ← heq]
        exact List.mem_cons_self _ _
      · rw [hq.2.2] at hlex
        rw [hdrain]
        refine List.mem_cons_of_mem _ ?_
        exact drain_complete f1 (n0 + 1) _ (minTail 1 (n0 + 1)) q hn hinv hq hlex
          (by omega)
    have hcard_le := card_le_length (n0 + 1) _ hcomp
    omega

theorem drain_length_witness :
    Fintype.card (Nat.Partition 0) + 2 ≤ 3 ∧
    (drainAux 3 (Partitions.new 0)).length = Fintype.card (Nat.Partition 0) :=
  ⟨by rw [Fintype.card_unique], drain_length_eq_card 0 3 (by rw [Fintype.card_unique])⟩

end Counting

theorem split_phase_witness :
    (reachState 8 20).next = State.B 3 1 ∧
    (1 = (reachState 8 20).k + 1 ∧
     (reachState 8 20).a.getD (reachState 8 20).k 0 = 3 ∧
     (reachState 8 20).a.getD 1 0 = (reachState 8 20).y ∧
     (reachState 8 20).a.getD (reachState 8 20).k 0 + (reachState 8 20).a.getD 1 0 =
       3 + (reachState 8 20).y ∧
     (∀ x2 l2, ((reachState 8 20).advance).next = State.B x2 l2 →
       ((reachState 8 20).advance).a.getD (reachState 8 20).k 0 =
         (reachState 8 20).a.getD (reachState 8 20).k 0 + 1 ∧
       ((reachState 8 20).advance).a.getD 1 0 =
         (reachState 8 20).a.getD 1 0 - 1 ∧
       ((reachState 8 20).advance).a.getD (reachState 8 20).k 0 +
         ((reachState 8 20).advance).a.getD 1 0 = 3 + (reachState 8 20).y)) :=
  ⟨by decide, split_phase_invariant 8 20 3 1 (by decide)⟩

end IntegerPartitions
